import Mathlib

/-!
Verification development for the `gtfs-tripify-demo-data` driver script
(`build.py`) and the snapshot-stitching core it invokes.

The pure computations of the driver (filename parsing, per-feed grouping,
chunk-offset computation, parse-error concatenation, the stop-name lookup,
and the name-resolution behaviour of the export stage) are embedded
directly from the source.  The `gtfs_tripify` core (`gt.logify`,
`gt.ops.merge_logbooks`, `gt.ops.cut_cancellations`) is not part of the
source tree; those operations are modelled from the specification, as
marked in their doc comments.
-/

namespace Build

/-! ## Python `range` and the per-feed chunking loop (build.py lines 67-78) -/

/-- The Python expression `list(range(0, stop, step))` for `step > 0`:
the list `[0, step, 2*step, ...]` of all multiples of `step` below `stop`.
CPython documents its length as `max(0, ceil((stop - 0) / step))`, which for
naturals is `(stop + step - 1) / step`.  (For `step = 0` CPython raises
`ValueError`; the guarded driver model below never calls this with 0.) -/
def pyRange (stop step : Nat) : List Nat :=
  (List.range ((stop + step - 1) / step)).map (fun i => i * step)

/-- The Python slice `l[start:stop]` for `0 <= start <= stop`. -/
def pySlice (l : List String) (start stop : Nat) : List String :=
  (l.drop start).take (stop - start)

/-- The Python statement `chunk_offsets[-1] = (chunk_offsets[-1][0], n)`
on a nonempty list: replace the second component of the last pair by `n`. -/
def replaceLastEnd (n : Nat) : List (Nat × Nat) → List (Nat × Nat)
  | [] => []
  | [p] => [(p.1, n)]
  | p :: q :: ps => p :: replaceLastEnd n (q :: ps)

/-- `step_size = len(feedlist) // n_segments` with `n_segments = 4`
(build.py line 72). -/
def step_size (n_messages : Nat) : Nat :=
  n_messages / 4

/-- The chunk-offset computation of build.py lines 70-76, on the length
`n_messages` of `feedlist`.  A zero `step_size` makes `range` raise
`ValueError` (build.py line 73 evaluates `range(0, n, n // 4)` first);
an empty `chunk_offsets` would make the `[-1]` assignment raise
`IndexError`.  Both failure modes are surfaced as `Except.error`. -/
def chunk_offsets (n_messages : Nat) : Except String (List (Nat × Nat)) :=
  if step_size n_messages = 0 then
    Except.error "ValueError: range() arg 3 must not be zero"
  else
    let r := pyRange n_messages (step_size n_messages)
    let zipped := r.dropLast.zip r.tail
    if zipped.isEmpty then
      Except.error "IndexError: list assignment index out of range"
    else
      Except.ok (replaceLastEnd n_messages zipped)

/-- `chunks = [feedlist[start:stop] for (start, stop) in chunk_offsets]`
(build.py line 77), with the failure modes of the offset computation. -/
def chunksOf (feedlist : List String) : Except String (List (List String)) :=
  (chunk_offsets feedlist.length).map
    (fun ps => ps.map (fun p => pySlice feedlist p.1 p.2))

/-- Consecutive pairs of a list of offsets: `[(o 0, o 1), (o 1, o 2), ...]`. -/
def consecPairs (os : List Nat) : List (Nat × Nat) :=
  os.zip os.tail

/-- A concrete six-snapshot file list (6 is not a multiple of 4). -/
def sixFiles : List String :=
  ["gtfs_7_20190601_000000.gtfs", "gtfs_7_20190601_000100.gtfs",
   "gtfs_7_20190601_000200.gtfs", "gtfs_7_20190601_000300.gtfs",
   "gtfs_7_20190601_000400.gtfs", "gtfs_7_20190601_000500.gtfs"]

/-! ## Filename parsing and per-feed grouping (build.py lines 23-35, 56-65) -/

/-- Python `str.find`: index of the first occurrence, `-1` if absent. -/
def pyFind (cs : List Char) (c : Char) : Int :=
  if c ∈ cs then (cs.indexOf c : Int) else -1

/-- Python slice `s[:k]`: for negative `k`, all but the last `-k`
characters (clamped at the empty string). -/
def pySliceTo (cs : List Char) (k : Int) : List Char :=
  if k < 0 then cs.take (cs.length - (-k).toNat) else cs.take k.toNat

/-- Python slice `s[k:]`: for negative `k`, the last `-k` characters
(clamped at the whole string). -/
def pySliceFrom (cs : List Char) (k : Int) : List Char :=
  if k < 0 then cs.drop (cs.length - (-k).toNat) else cs.drop k.toNat

/-- `splitname` (build.py lines 23-35): strips the 5-character `gtfs_`
lead, reads the train-lines field up to the next underscore, then the date
field, and returns `(origname, trainlines)`.  The `date` and trailing-name
computations are performed but unused, as in the source. -/
def splitname (name : String) : String × String :=
  let origname := name
  let cs0 := name.toList.drop 5
  let first_splitter_idx := pyFind cs0 '_'
  let trainlines := pySliceTo cs0 first_splitter_idx
  let cs1 := pySliceFrom cs0 (first_splitter_idx + 1)
  let second_splitter_idx := pyFind cs1 '_'
  let date := pySliceTo cs1 second_splitter_idx
  let rest := pySliceTo (pySliceFrom cs1 (second_splitter_idx + 1)) (-5)
  (origname, String.mk trainlines)

/-- Python `sorted` on strings: ascending lexicographic order. -/
def pySort (l : List String) : List String :=
  List.insertionSort (· ≤ ·) l

/-- `messageinfo = list(map(splitname, sorted(os.listdir(...))))`
(build.py line 56). -/
def messageinfo (files : List String) : List (String × String) :=
  (pySort files).map splitname

/-- `unique_feeds` (build.py line 57), as a deduplicated list. -/
def unique_feeds (files : List String) : List String :=
  ((messageinfo files).map Prod.snd).dedup

/-- One entry of `feed_message_map` (build.py lines 58-65): the sorted
list of data paths of the files whose names parse to `feed`. -/
def feed_message_map (files : List String) (feed : String) : List String :=
  pySort ((messageinfo files).filterMap
    (fun fi => if fi.2 = feed then some ("./data/20190601/" ++ fi.1) else none))

/-! ## Module-level name bindings and the export stage (build.py 1-141) -/

/-- The names bound at module level by build.py lines 1-121: the imports
(lines 1-8) and every assignment or loop target executed before line 124
(Python `for` targets and `with` targets leak into module scope).  These
are exactly the global names visible when line 124 executes.  Python
builtins are a separate scope; `pd` is not a builtin. -/
def module_names_in_scope_at_line_124 : List String :=
  ["ZipFile", "os", "datetime", "warnings", "time", "itertools", "gt",
   "OUTPUT_DIR", "PATH_TO_GTFS_RT_ARCHIVE_FILE", "PATH_TO_GTFS_ARCHIVE_FILE",
   "splitname", "messageinfo", "unique_feeds", "feed_message_map", "feed",
   "feed_identifier", "feedlist", "n_segments", "n_messages", "step_size",
   "offsets", "chunk_offsets", "chunks", "logbooks", "timestamps",
   "parse_errors", "sublogs", "sublogs_timestamps", "sublogs_parse_errors",
   "chunk", "messages", "filename", "fp", "sublog", "sublog_timestamps",
   "sublog_parse_errors"]

/-- Python global-name resolution at line 124: evaluating a name yields its
binding if bound, else raises `NameError`. -/
def resolveGlobal (nm : String) : Except String Unit :=
  if nm ∈ module_names_in_scope_at_line_124 then Except.ok ()
  else Except.error ("NameError: name " ++ nm ++ " is not defined")

/-- The export stage (build.py lines 124-141): line 124 evaluates
`pd.read_csv(...)`, which first resolves the name `pd`; only if that
succeeds are the stop-name annotation loop (lines 135-139) and the final
CSV export (line 141) performed.  Returns the artifacts produced. -/
def exportStage : Except String (List String) := do
  let _ ← resolveGlobal "pd"
  Except.ok ["stop_name column", "7_trains.csv"]

/-! ## The stop-name lookup (build.py lines 124-130) -/

/-- `stop_id in stops.index` on the stops table (modelled as an association
list from `stop_id` to `stop_name`). -/
def stopsIndexContains (stops : List (String × String))
    (stop_id : String) : Bool :=
  stops.any (fun e => e.1 == stop_id)

/-- `get_stop_name_for_stop_id` (build.py lines 126-130): if the stop id is
in the table index, return `stops.loc[stop_id].stop_name`, else `None`. -/
def get_stop_name_for_stop_id (stops : List (String × String))
    (stop_id : String) : Option String :=
  if stopsIndexContains stops stop_id then stops.lookup stop_id else none

/-! ## The gtfs_tripify core, modelled from the specification

The library behind `gt.logify`, `gt.ops.merge_logbooks` and
`gt.ops.cut_cancellations` is an external dependency, not part of this
source tree; the definitions below are modelled from the specification
(sections 3, 4.1-4.4 and 7) and say so in their doc comments. -/

/-- Modelled from the spec (section 3): status of a trip stop record. -/
inductive TripStatus
  | Scheduled
  | Arrived
  | Departed
  | Skipped
deriving DecidableEq, Repr

/-- Modelled from the spec (section 3, TripStopUpdate). -/
structure TripStopUpdate where
  trip_id : String
  stop_id : String
  stop_sequence : Nat
  arrival_estimate : Option Int
  departure_estimate : Option Int
  is_observed : Bool
deriving DecidableEq, Repr

/-- Modelled from the spec (section 3, DecodedSnapshot). -/
structure Snapshot where
  timestamp : Int
  updates : List TripStopUpdate
deriving DecidableEq, Repr

/-- Modelled from the spec (section 3, RawSnapshot; section 4.1): a raw
payload is an opaque byte string; we model a payload by its decode
outcome — either the structured snapshot it decodes to, or a malformed
payload with a human-readable reason. -/
inductive RawSnapshot
  | wellFormed (snap : Snapshot)
  | malformed (reason : String)
deriving DecidableEq, Repr

/-- Modelled from the spec (section 3, ParseError). -/
structure ParseError where
  snapshot_index : Nat
  reason : String
deriving DecidableEq, Repr

/-- Modelled from the spec (section 4.1): `decode` validates the payload
and returns a ParseError carrying the snapshot's position on failure. -/
def decode (idx : Nat) : RawSnapshot → Except ParseError Snapshot
  | RawSnapshot.wellFormed s => Except.ok s
  | RawSnapshot.malformed why => Except.error ⟨idx, why⟩

/-- Modelled from the spec (section 3, TripRecord). -/
structure TripRecord where
  trip_id : String
  stop_id : String
  stop_sequence : Nat
  first_seen_estimate : Option Int
  last_seen_estimate : Option Int
  finalized_time : Option Int
  status : TripStatus
deriving DecidableEq, Repr

/-- A logbook, keyed by `(trip_id, stop_sequence)` (spec section 3: a
mapping from trip to stop records; the association list keeps creation
order and its key set is what the claims quantify over). -/
abbrev Logbook : Type := List ((String × Nat) × TripRecord)

def updKey (u : TripStopUpdate) : String × Nat :=
  (u.trip_id, u.stop_sequence)

/-- The estimate carried by an update (departure estimate preferred). -/
def updEstimate (u : TripStopUpdate) : Option Int :=
  u.departure_estimate.or u.arrival_estimate

/-- Status assigned when an observed update finalizes a record
(spec section 4.2 step 3: Arrived/Departed accordingly). -/
def observedStatus (u : TripStopUpdate) : TripStatus :=
  if u.departure_estimate.isSome then TripStatus.Departed
  else TripStatus.Arrived

/-- Modelled from the spec (section 4.2 steps 2-4): fold one update into
an existing record.  A finalized record discards the update (step 2); an
observed update with an estimate finalizes (step 3); otherwise the new
prediction revises `last_seen_estimate` (step 4). -/
def stepRecord (r : TripRecord) (u : TripStopUpdate) : TripRecord :=
  if r.finalized_time.isSome then r
  else if u.is_observed then
    match updEstimate u with
    | some t => { r with finalized_time := some t,
                         status := observedStatus u }
    | none => r
  else
    { r with last_seen_estimate := updEstimate u }

/-- Modelled from the spec (section 4.2 step 1): the record created on
first sighting of a `(trip_id, stop_sequence)` pair, before the sighting
update itself is applied. -/
def blankRecord (u : TripStopUpdate) : TripRecord :=
  { trip_id := u.trip_id, stop_id := u.stop_id,
    stop_sequence := u.stop_sequence,
    first_seen_estimate := updEstimate u,
    last_seen_estimate := updEstimate u,
    finalized_time := none, status := TripStatus.Scheduled }

/-- Fold one update into the logbook: locate or create the record for its
`(trip_id, stop_sequence)` key and apply the update to it. -/
def applyUpdate : Logbook → TripStopUpdate → Logbook
  | [], u => [(updKey u, stepRecord (blankRecord u) u)]
  | e :: lb, u =>
    if e.1 = updKey u then (e.1, stepRecord e.2 u) :: lb
    else e :: applyUpdate lb u

def applySnapshot (lb : Logbook) (s : Snapshot) : Logbook :=
  s.updates.foldl applyUpdate lb

/-- Modelled from the spec (section 4.2, `build`, the engine behind
`gt.logify`): decode and fold the snapshots strictly in input order,
accumulating the timestamps of well-formed snapshots and the parse errors
of malformed ones; errors are data and never abort the fold. -/
def logifyGo (lb : Logbook) (i : Nat) :
    List RawSnapshot → Logbook × List Int × List ParseError
  | [] => (lb, [], [])
  | raw :: rest =>
    match decode i raw with
    | Except.ok s =>
      let out := logifyGo (applySnapshot lb s) (i + 1) rest
      (out.1, s.timestamp :: out.2.1, out.2.2)
    | Except.error e =>
      let out := logifyGo lb (i + 1) rest
      (out.1, out.2.1, e :: out.2.2)

/-- `gt.logify` (modelled from the spec, section 4.2). -/
def logify (raws : List RawSnapshot) :
    Logbook × List Int × List ParseError :=
  logifyGo [] 0 raws

def lookupRec : Logbook → (String × Nat) → Option TripRecord
  | [], _ => none
  | e :: lb, k => if e.1 = k then some e.2 else lookupRec lb k

def replaceRec : Logbook → (String × Nat) → TripRecord → Logbook
  | [], _, _ => []
  | f :: lb, k, r => if f.1 = k then (k, r) :: lb else f :: replaceRec lb k r

/-- Modelled from the spec (section 4.3): insert one record of a later
chunk into the accumulated logbook.  New keys are appended; for an
existing key the later record wins only when it carries a
`finalized_time` the earlier one lacks — finalization is monotonic, and
when both are finalized the earlier (chronologically first) record is
authoritative. -/
def mergeInsert (acc : Logbook) (e : (String × Nat) × TripRecord) :
    Logbook :=
  match lookupRec acc e.1 with
  | none => acc ++ [e]
  | some r =>
    if r.finalized_time.isNone && e.2.finalized_time.isSome then
      replaceRec acc e.1 e.2
    else acc

def merge_two (a b : Logbook) : Logbook :=
  b.foldl mergeInsert a

/-- Are the observed timestamps in non-decreasing (chronological)
order? -/
def chronOrdered : List Int → Bool
  | [] => true
  | [_] => true
  | a :: b :: ts => decide (a ≤ b) && chronOrdered (b :: ts)

/-- Modelled from the spec (sections 4.3 and 7, `merge` /
`gt.ops.merge_logbooks`): sequentially merge the chunk results after
verifying, via the concatenated `timestamps_seen`, that the chunks arrive
in chronological order; an ordering violation is fatal for the feed. -/
def merge_logbooks (pairs : List (Logbook × List Int)) :
    Except String (Logbook × List Int) :=
  let ts := (pairs.map Prod.snd).flatten
  if chronOrdered ts then
    Except.ok (pairs.foldl (fun acc p => merge_two acc p.1) [], ts)
  else
    Except.error "OrderingViolation: chunks out of chronological order"

/-- Is some later-sequence record of the same trip finalized? -/
def laterFinalized (lb : Logbook) (k : String × Nat) : Bool :=
  lb.any (fun e =>
    e.1.1 == k.1 && decide (k.2 < e.1.2) && e.2.finalized_time.isSome)

/-- Modelled from the spec (section 4.4, `gt.ops.cut_cancellations`):
remove each record left unfinalized (never observed) that has a
later-sequence finalized record for the same trip; trailing unfinalized
records are retained as-is. -/
def cut_cancellations (lb : Logbook) : Logbook :=
  lb.filter (fun e =>
    e.2.finalized_time.isSome || ! laterFinalized lb e.1)

/-- The per-feed chunk loop of build.py lines 96-115: accumulate
`sublogs`, `sublogs_timestamps` and `sublogs_parse_errors` by calling
`gt.logify` on each chunk in order. -/
def processChunks (chunks : List (List RawSnapshot)) :
    List Logbook × List (List Int) × List (List ParseError) :=
  chunks.foldl
    (fun acc chunk =>
      let out := logify chunk
      (acc.1 ++ [out.1], acc.2.1 ++ [out.2.1], acc.2.2 ++ [out.2.2]))
    ([], [], [])

/-- `parse_errors[feed_identifier] =
list(itertools.chain(*sublogs_parse_errors))` (build.py line 117). -/
def feedParseErrors (chunks : List (List RawSnapshot)) : List ParseError :=
  (processChunks chunks).2.2.flatten

/-! ## Per-key analysis of the fold and the merge -/

/-- The per-key view of `applyUpdate`: the effect of one update on the
record stored at the update's own key. -/
def stepO (o : Option TripRecord) (u : TripStopUpdate) : Option TripRecord :=
  match o with
  | none => some (stepRecord (blankRecord u) u)
  | some r => some (stepRecord r u)

/-- The updates of `us` whose key is `k`, in order. -/
def keyUpdates (k : String × Nat) (us : List TripStopUpdate) :
    List TripStopUpdate :=
  us.filter (fun u => decide (updKey u = k))

def buildLB (us : List TripStopUpdate) : Logbook :=
  us.foldl applyUpdate []

/-- The decoded snapshots of a raw stream, in order. -/
def okSnaps (raws : List RawSnapshot) : List Snapshot :=
  raws.filterMap (fun raw => match raw with
    | RawSnapshot.wellFormed s => some s
    | RawSnapshot.malformed _ => none)

/-- All updates of the well-formed snapshots of a raw stream, in order. -/
def allUpdates (raws : List RawSnapshot) : List TripStopUpdate :=
  ((okSnaps raws).map Snapshot.updates).flatten

/-- The finalization-relevant part of a record. -/
def finStat (r : TripRecord) : Option Int × TripStatus :=
  (r.finalized_time, r.status)

/-- The finalization state machine induced by one update. -/
def finStep (p : Option Int × TripStatus) (u : TripStopUpdate) :
    Option Int × TripStatus :=
  match p.1 with
  | some _ => p
  | none =>
    if u.is_observed then
      match updEstimate u with
      | some t => (some t, observedStatus u)
      | none => p
    else p

/-- The finalization-relevant part of the record stored at key `k`. -/
def finStatAt (lb : Logbook) (k : String × Nat) :
    Option (Option Int × TripStatus) :=
  (lookupRec lb k).map finStat

/-- A prediction for trip `T1`, stop sequence 1: estimate 110, not yet
observed. -/
def cexUpdate1 : TripStopUpdate :=
  { trip_id := "T1", stop_id := "S1", stop_sequence := 1,
    arrival_estimate := some 110, departure_estimate := none,
    is_observed := false }

/-- The observed arrival of trip `T1` at stop sequence 1 at time 108. -/
def cexUpdate2 : TripStopUpdate :=
  { trip_id := "T1", stop_id := "S1", stop_sequence := 1,
    arrival_estimate := some 108, departure_estimate := none,
    is_observed := true }

def cexChunk1 : List RawSnapshot :=
  [RawSnapshot.wellFormed ⟨100, [cexUpdate1]⟩]

def cexChunk2 : List RawSnapshot :=
  [RawSnapshot.wellFormed ⟨105, [cexUpdate2]⟩]

/-- A later prediction for trip `T1`, stop sequence 1, arriving after the
stop was already finalized. -/
def cexUpdate3 : TripStopUpdate :=
  { trip_id := "T1", stop_id := "S1", stop_sequence := 1,
    arrival_estimate := some 999, departure_estimate := none,
    is_observed := false }

def cexMore : List RawSnapshot :=
  [RawSnapshot.wellFormed ⟨110, [cexUpdate3]⟩]

theorem length_pyRange (stop step : Nat) :
    (pyRange stop step).length = (stop + step - 1) / step := by
  simp [pyRange]

theorem dropLast_zip_tail (r : List Nat) :
    r.dropLast.zip r.tail = consecPairs r := by
  induction r with
  | nil => rfl
  | cons a t ih =>
    cases t with
    | nil => rfl
    | cons b t' =>
      simp only [consecPairs] at ih ⊢
      simp only [List.dropLast_cons₂, List.tail_cons, List.zip_cons_cons]
      exact congrArg _ ih

theorem consecPairs_cons_cons (a b : Nat) (t : List Nat) :
    consecPairs (a :: b :: t) = (a, b) :: consecPairs (b :: t) := rfl

theorem length_consecPairs (os : List Nat) :
    (consecPairs os).length = os.length - 1 := by
  cases os with
  | nil => rfl
  | cons a t => simp [consecPairs, List.length_zip]

theorem length_replaceLastEnd (n : Nat) (ps : List (Nat × Nat)) :
    (replaceLastEnd n ps).length = ps.length := by
  induction ps with
  | nil => rfl
  | cons p ps ih =>
    cases ps with
    | nil => rfl
    | cons q ps' => simpa [replaceLastEnd] using ih

theorem replaceLastEnd_consecPairs (n : Nat) :
    ∀ r : List Nat, 2 ≤ r.length →
      replaceLastEnd n (consecPairs r) = consecPairs (r.dropLast ++ [n])
  | [], h => by simp at h
  | [_], h => by simp at h
  | a :: b :: t, _ => by
    cases t with
    | nil => rfl
    | cons c t' =>
      have ih := replaceLastEnd_consecPairs n (b :: c :: t') (by simp)
      simp only [consecPairs_cons_cons, List.dropLast_cons₂, List.cons_append]
      rw [show replaceLastEnd n ((a, b) :: (b, c) :: consecPairs (c :: t')) =
            (a, b) :: replaceLastEnd n ((b, c) :: consecPairs (c :: t')) from rfl]
      rw [show ((b, c) :: consecPairs (c :: t')) = consecPairs (b :: c :: t') from rfl, ih]
      simp only [List.dropLast_cons₂, List.cons_append]

theorem chain'_consecPairs (os : List Nat) :
    List.Chain' (fun p q : Nat × Nat => p.2 = q.1) (consecPairs os) := by
  induction os with
  | nil => exact List.chain'_nil
  | cons a t ih =>
    cases t with
    | nil => simp [consecPairs]
    | cons b t' =>
      rw [consecPairs_cons_cons]
      cases t' with
      | nil => simp [consecPairs]
      | cons c t'' =>
        rw [consecPairs_cons_cons]
        rw [consecPairs_cons_cons] at ih
        exact List.Chain'.cons rfl ih

theorem mem_consecPairs_le (os : List Nat) (hc : List.Chain' (· ≤ ·) os) :
    ∀ p ∈ consecPairs os, p.1 ≤ p.2 := by
  induction os with
  | nil => intro p hp; simp [consecPairs] at hp
  | cons a t ih =>
    cases t with
    | nil => intro p hp; simp [consecPairs] at hp
    | cons b t' =>
      intro p hp
      rw [consecPairs_cons_cons] at hp
      rcases List.mem_cons.1 hp with rfl | hp
      · exact (List.chain'_cons.1 hc).1
      · exact ih (List.chain'_cons.1 hc).2 p hp

theorem head_consecPairs (a b : Nat) (t : List Nat) :
    (consecPairs (a :: b :: t)).head?.map Prod.fst = some a := rfl

theorem getLast_consecPairs :
    ∀ os : List Nat, 2 ≤ os.length →
      (consecPairs os).getLast?.map Prod.snd = os.getLast?
  | [], h => by simp at h
  | [_], h => by simp at h
  | a :: b :: t, _ => by
    cases t with
    | nil => rfl
    | cons c t' =>
      have ih := getLast_consecPairs (b :: c :: t') (by simp)
      show Option.map Prod.snd
          ((a, b) :: (b, c) :: consecPairs (c :: t')).getLast? =
        (a :: b :: c :: t').getLast?
      rw [List.getLast?_cons_cons, List.getLast?_cons_cons]
      exact ih

/-- Heads of a `(· ≤ ·)` chain are bounded by the default-last. -/
theorem chain'_le_getLastD (b : Nat) :
    ∀ os : List Nat, List.Chain' (· ≤ ·) (b :: os) → b ≤ os.getLastD b
  | [], _ => le_refl b
  | c :: os', h => by
    have h1 : b ≤ c := (List.chain'_cons.1 h).1
    have h2 : c ≤ os'.getLastD c :=
      chain'_le_getLastD c os' (List.chain'_cons.1 h).2
    rw [List.getLastD_cons]
    exact le_trans h1 h2

/-- Concatenating the slices cut at consecutive offsets of a sorted offset
list recovers the slice from the first offset to the last. -/
theorem join_slices_consecPairs {α : Type} (l : List α) :
    ∀ (os : List Nat) (a : Nat), List.Chain' (· ≤ ·) (a :: os) →
      ((consecPairs (a :: os)).map
        (fun p => (l.drop p.1).take (p.2 - p.1))).flatten =
        (l.drop a).take (os.getLastD a - a)
  | [], a, _ => by simp [consecPairs]
  | b :: os', a, h => by
    have hab : a ≤ b := (List.chain'_cons.1 h).1
    have htail : List.Chain' (· ≤ ·) (b :: os') := (List.chain'_cons.1 h).2
    have hbc : b ≤ os'.getLastD b := chain'_le_getLastD b os' htail
    have ih := join_slices_consecPairs l os' b htail
    rw [consecPairs_cons_cons, List.map_cons, List.flatten_cons, ih]
    rw [List.getLastD_cons]
    have hdrop : l.drop b = (l.drop a).drop (b - a) := by
      rw [List.drop_drop]
      congr 1
      omega
    rw [hdrop]
    rw [← List.take_add]
    congr 1
    omega

/-! Facts about `pyRange stop step` for positive `step`. -/

theorem pyRange_pairwise_lt (stop step : Nat) (hs : 0 < step) :
    (pyRange stop step).Pairwise (· < ·) := by
  refine List.Pairwise.map _ ?_ (List.pairwise_lt_range _)
  intro i j hij
  exact (Nat.mul_lt_mul_right hs).2 hij

theorem pyRange_chain'_le (stop step : Nat) (hs : 0 < step) :
    List.Chain' (· ≤ ·) (pyRange stop step) :=
  List.chain'_iff_pairwise.2
    ((pyRange_pairwise_lt stop step hs).imp le_of_lt)

theorem pyRange_lt_stop (stop step : Nat) (hs : 0 < step) :
    ∀ x ∈ pyRange stop step, x < stop := by
  intro x hx
  rcases List.mem_map.1 hx with ⟨i, hi, rfl⟩
  rw [List.mem_range] at hi
  have h1 : (i + 1) * step ≤ ((stop + step - 1) / step) * step :=
    Nat.mul_le_mul_right step hi
  have h2 : ((stop + step - 1) / step) * step ≤ stop + step - 1 :=
    Nat.div_mul_le_self _ _
  have h3 : (i + 1) * step = i * step + step := by ring
  omega

theorem pyRange_head (stop step : Nat) (hs : 0 < step) (hn : 0 < stop) :
    ∃ r', pyRange stop step = 0 :: r' := by
  have hm : 1 ≤ (stop + step - 1) / step := by
    rw [Nat.one_le_div_iff hs]
    omega
  obtain ⟨k, hk⟩ : ∃ k, (stop + step - 1) / step = k + 1 :=
    ⟨(stop + step - 1) / step - 1, by omega⟩
  refine ⟨(List.range k).map (fun i => (i + 1) * step), ?_⟩
  rw [pyRange, hk, List.range_succ_eq_map]
  simp [List.map_map, Function.comp]

theorem step_size_pos (n : Nat) (h4 : 4 ≤ n) : 0 < step_size n := by
  simp only [step_size]
  omega

theorem pyRange_len2 (n : Nat) (h4 : 4 ≤ n) :
    2 ≤ (pyRange n (step_size n)).length := by
  rw [length_pyRange, Nat.le_div_iff_mul_le (step_size_pos n h4)]
  simp only [step_size]
  omega

theorem pyRange_two_cons (n : Nat) (h4 : 4 ≤ n) :
    ∃ b t, pyRange n (step_size n) = 0 :: b :: t := by
  obtain ⟨r', hr⟩ := pyRange_head n (step_size n) (step_size_pos n h4) (by omega)
  have hm := pyRange_len2 n h4
  rw [hr] at hm ⊢
  cases r' with
  | nil => simp at hm
  | cons b t => exact ⟨b, t, rfl⟩

theorem chunk_offsets_ok (n : Nat) (h4 : 4 ≤ n) :
    chunk_offsets n =
      Except.ok (consecPairs ((pyRange n (step_size n)).dropLast ++ [n])) := by
  have hs := step_size_pos n h4
  have hm := pyRange_len2 n h4
  obtain ⟨b, t, habt⟩ := pyRange_two_cons n h4
  have hz : (pyRange n (step_size n)).dropLast.zip (pyRange n (step_size n)).tail
      = consecPairs (pyRange n (step_size n)) := dropLast_zip_tail _
  simp only [chunk_offsets]
  rw [if_neg (Nat.pos_iff_ne_zero.1 hs), hz]
  rw [replaceLastEnd_consecPairs n _ hm]
  have hzempty : (consecPairs (pyRange n (step_size n))).isEmpty = false := by
    rw [habt, consecPairs_cons_cons]
    exact List.isEmpty_cons
  rw [hzempty]
  simp

theorem chunk_offsets_length (n : Nat) (h4 : 4 ≤ n) :
    (consecPairs ((pyRange n (step_size n)).dropLast ++ [n])).length =
      (n + step_size n - 1) / step_size n - 1 := by
  have hm := pyRange_len2 n h4
  rw [length_consecPairs, List.length_append, List.length_dropLast,
      length_pyRange]
  rw [length_pyRange] at hm
  simp only [List.length_cons, List.length_nil]
  omega

/-- The offset list `r.dropLast ++ [n]` underlying the chunk pairs is a
`(· ≤ ·)` chain when `r = pyRange n (step_size n)` and `4 ≤ n`. -/
theorem offsets_chain_le (n : Nat) (h4 : 4 ≤ n) :
    List.Chain' (· ≤ ·) ((pyRange n (step_size n)).dropLast ++ [n]) := by
  have hs := step_size_pos n h4
  have hchain : List.Chain' (· ≤ ·) (pyRange n (step_size n)) :=
    pyRange_chain'_le n (step_size n) hs
  refine List.chain'_append.2 ⟨hchain.sublist (List.dropLast_sublist _),
    List.chain'_singleton n, ?_⟩
  intro x hx y hy
  have hxmem : x ∈ (pyRange n (step_size n)).dropLast :=
    List.mem_of_mem_getLast? hx
  have hxr : x ∈ pyRange n (step_size n) :=
    (List.dropLast_sublist _).subset hxmem
  have hxn : x < n := pyRange_lt_stop n (step_size n) hs x hxr
  have hyn : y = n := by
    simp only [List.head?_cons, Option.mem_def, Option.some.injEq] at hy
    exact hy.symm
  omega

/-- The offset list written as an explicit double-cons, with its last
element equal to `n`. -/
theorem offsets_shape (n : Nat) (h4 : 4 ≤ n) :
    ∃ os', (pyRange n (step_size n)).dropLast ++ [n] = 0 :: os' ∧
      os' ≠ [] ∧ os'.getLast? = some n := by
  obtain ⟨b, t, habt⟩ := pyRange_two_cons n h4
  rw [habt, List.dropLast_cons₂, List.cons_append]
  refine ⟨(b :: t).dropLast ++ [n], rfl, ?_, List.getLast?_concat _⟩
  intro hnil
  exact absurd (List.append_eq_nil.1 hnil).2 (by simp)

theorem head_consecPairs_of_ne_nil (a : Nat) (os : List Nat) (h : os ≠ []) :
    (consecPairs (a :: os)).head?.map Prod.fst = some a := by
  cases os with
  | nil => exact absurd rfl h
  | cons b t => exact head_consecPairs a b t

/-- **C1.** For every feed whose sorted file list has length at least 4, the
chunk intervals computed by the per-feed chunking loop (`chunk_offsets`,
build.py lines 67-78) are contiguous (each chunk starts at the index where
the previous one ends), non-overlapping well-formed intervals that start at
index 0 and end at the list length, so the concatenation of the resulting
chunk slices equals the original sorted file list (chronological order
preserved). -/
theorem chunk_offsets_contiguous_cover (feedlist : List String)
    (h4 : 4 ≤ feedlist.length) :
    ∃ ps, chunk_offsets feedlist.length = Except.ok ps ∧
      ps.head?.map Prod.fst = some 0 ∧
      ps.getLast?.map Prod.snd = some feedlist.length ∧
      List.Chain' (fun p q : Nat × Nat => p.2 = q.1) ps ∧
      (∀ p ∈ ps, p.1 ≤ p.2) ∧
      (ps.map (fun p => pySlice feedlist p.1 p.2)).flatten = feedlist := by
  set n := feedlist.length with hn
  obtain ⟨os', hos, hos_ne, hos_last⟩ := offsets_shape n h4
  have hchain : List.Chain' (· ≤ ·) ((pyRange n (step_size n)).dropLast ++ [n]) :=
    offsets_chain_le n h4
  have hOSlen : 2 ≤ ((pyRange n (step_size n)).dropLast ++ [n]).length := by
    rw [hos]
    cases os' with
    | nil => exact absurd rfl hos_ne
    | cons c t => simp
  refine ⟨consecPairs ((pyRange n (step_size n)).dropLast ++ [n]),
    chunk_offsets_ok n h4, ?_, ?_, chain'_consecPairs _, ?_, ?_⟩
  · rw [hos]
    exact head_consecPairs_of_ne_nil 0 os' hos_ne
  · rw [getLast_consecPairs _ hOSlen, hos]
    cases os' with
    | nil => exact absurd rfl hos_ne
    | cons c t =>
      rw [List.getLast?_cons_cons]
      exact hos_last
  · exact mem_consecPairs_le _ hchain
  · rw [hos] at hchain ⊢
    simp only [pySlice]
    rw [join_slices_consecPairs feedlist os' 0 hchain]
    rw [List.getLastD_eq_getLast? 0 os', hos_last]
    simp [hn]

/-- Witness for `chunk_offsets_contiguous_cover` at a six-element list. -/
theorem chunk_offsets_contiguous_cover_witness :
    4 ≤ sixFiles.length ∧
    ∃ ps, chunk_offsets sixFiles.length = Except.ok ps ∧
      ps.head?.map Prod.fst = some 0 ∧
      ps.getLast?.map Prod.snd = some sixFiles.length ∧
      List.Chain' (fun p q : Nat × Nat => p.2 = q.1) ps ∧
      (∀ p ∈ ps, p.1 ≤ p.2) ∧
      (ps.map (fun p => pySlice sixFiles p.1 p.2)).flatten = sixFiles :=
  ⟨by decide, chunk_offsets_contiguous_cover sixFiles (by decide)⟩

theorem chunk_offsets_last_snd (n : Nat) (h4 : 4 ≤ n) :
    (consecPairs ((pyRange n (step_size n)).dropLast ++ [n])).getLast?.map
      Prod.snd = some n := by
  obtain ⟨os', hos, hos_ne, hos_last⟩ := offsets_shape n h4
  have hOSlen : 2 ≤ ((pyRange n (step_size n)).dropLast ++ [n]).length := by
    rw [hos]
    cases os' with
    | nil => exact absurd rfl hos_ne
    | cons c t => simp
  rw [getLast_consecPairs _ hOSlen, hos]
  cases os' with
  | nil => exact absurd rfl hos_ne
  | cons c t =>
    rw [List.getLast?_cons_cons]
    exact hos_last

/-- **C4, counterexample.** The claim says a feed list whose length is not a
multiple of 4 yields exactly 4 chunks; at length 6 the loop yields 5. -/
theorem chunk_count_counterexample :
    (6 : Nat) % 4 ≠ 0 ∧ (4 : Nat) ≤ 6 ∧
    (chunk_offsets 6).map List.length = Except.ok 5 ∧ (5 : Nat) ≠ 4 :=
  ⟨by decide, by decide, rfl, by decide⟩

/-- **C4, amended.** For every feed whose file list has length `n ≥ 4`, the
chunking loop produces exactly 3 chunks when `n` is a multiple of 4, and
exactly 4 chunks when `n` is not a multiple of 4 *and* `n % 4 ≤ n / 4`;
the only lengths `n ≥ 4` violating that side condition are 6 and 11
(where the loop yields 5 chunks) and 7 (where it yields 6 chunks); in all
cases the final chunk absorbs all remaining files because its end offset
is replaced by `n`. -/
theorem chunk_count_amended (n : Nat) (h4 : 4 ≤ n) :
    ∃ ps, chunk_offsets n = Except.ok ps ∧
      ps.getLast?.map Prod.snd = some n ∧
      (n % 4 = 0 → ps.length = 3) ∧
      (n % 4 ≠ 0 → n % 4 ≤ n / 4 → ps.length = 4) ∧
      (n % 4 ≠ 0 → ¬ n % 4 ≤ n / 4 → n = 6 ∨ n = 7 ∨ n = 11) ∧
      (n = 6 ∨ n = 11 → ps.length = 5) ∧
      (n = 7 → ps.length = 6) := by
  refine ⟨_, chunk_offsets_ok n h4, chunk_offsets_last_snd n h4,
    ?_, ?_, ?_, ?_, ?_⟩
  · intro hmod
    rw [chunk_offsets_length n h4]
    have lo : 4 * step_size n ≤ n + step_size n - 1 := by
      simp only [step_size]
      omega
    have hi : n + step_size n - 1 < (4 + 1) * step_size n := by
      simp only [step_size]
      omega
    rw [Nat.div_eq_of_lt_le lo hi]
  · intro hmod hle
    rw [chunk_offsets_length n h4]
    have lo : 5 * step_size n ≤ n + step_size n - 1 := by
      simp only [step_size]
      omega
    have hi : n + step_size n - 1 < (5 + 1) * step_size n := by
      simp only [step_size]
      omega
    rw [Nat.div_eq_of_lt_le lo hi]
  · intro hmod hgt
    omega
  · rintro (rfl | rfl) <;> decide
  · rintro rfl
    decide

/-- Witness for `chunk_count_amended` at `n = 13` (not a multiple of 4,
`13 % 4 = 1 ≤ 3 = 13 / 4`). -/
theorem chunk_count_amended_witness :
    4 ≤ 13 ∧
    ∃ ps, chunk_offsets 13 = Except.ok ps ∧
      ps.getLast?.map Prod.snd = some 13 ∧
      (13 % 4 = 0 → ps.length = 3) ∧
      (13 % 4 ≠ 0 → 13 % 4 ≤ 13 / 4 → ps.length = 4) ∧
      (13 % 4 ≠ 0 → ¬ 13 % 4 ≤ 13 / 4 → 13 = 6 ∨ 13 = 7 ∨ 13 = 11) ∧
      (13 = 6 ∨ 13 = 11 → ps.length = 5) ∧
      (13 = 7 → ps.length = 6) :=
  ⟨by decide, chunk_count_amended 13 (by decide)⟩

/-- **C5.** The chunking computation is total exactly for feeds with at
least 4 files: `step_size` is `len // 4`, which is zero iff the feed list
is shorter than 4, in which case Python's `range` with step 0 raises
`ValueError` before any chunk is produced; for lists of length at least 4
the computation succeeds. -/
theorem chunking_total_iff_four (feedlist : List String) :
    (step_size feedlist.length = 0 ↔ feedlist.length < 4) ∧
    (feedlist.length < 4 →
      chunksOf feedlist =
        Except.error "ValueError: range() arg 3 must not be zero") ∧
    (4 ≤ feedlist.length → ∃ cs, chunksOf feedlist = Except.ok cs) := by
  refine ⟨by simp only [step_size]; omega, ?_, ?_⟩
  · intro h
    have h0 : step_size feedlist.length = 0 := by
      simp only [step_size]
      omega
    simp [chunksOf, chunk_offsets, h0, Except.map]
  · intro h4
    simp only [chunksOf, chunk_offsets_ok _ h4]
    exact ⟨_, rfl⟩

/-- Witness for `chunking_total_iff_four`: a two-file feed raises
`ValueError`, the six-file feed succeeds. -/
theorem chunking_total_iff_four_witness :
    chunksOf ["gtfs_7_20190601_000000.gtfs", "gtfs_7_20190601_000100.gtfs"] =
      Except.error "ValueError: range() arg 3 must not be zero" ∧
    ∃ cs, chunksOf sixFiles = Except.ok cs :=
  ⟨(chunking_total_iff_four _).2.1 (by decide),
   (chunking_total_iff_four sixFiles).2.2 (by decide)⟩

theorem splitname_fst (s : String) : (splitname s).1 = s := rfl

/-- **C7.** For every feed identifier, `feed_message_map` maps it to
exactly the paths of the files whose names parse (via `splitname`) to that
identifier, and to no others, sorted in ascending lexicographic order, so
each feed's messages are grouped by feed identifier and presented in
chronological (filename) order before the core is invoked. -/
theorem feed_message_map_spec (files : List String) (feed : String) :
    List.Sorted (· ≤ ·) (feed_message_map files feed) ∧
    ∀ p, p ∈ feed_message_map files feed ↔
      ∃ fn, fn ∈ files ∧ (splitname fn).2 = feed ∧
        p = "./data/20190601/" ++ fn := by
  constructor
  · exact List.sorted_insertionSort _ _
  · intro p
    rw [feed_message_map, pySort]
    rw [(List.perm_insertionSort _ _).mem_iff]
    rw [List.mem_filterMap]
    constructor
    · rintro ⟨fi, hfi, hp⟩
      rcases List.mem_map.1 hfi with ⟨fn, hfn, rfl⟩
      by_cases h : (splitname fn).2 = feed
      · rw [if_pos h] at hp
        refine ⟨fn, ?_, h, ?_⟩
        · exact (List.perm_insertionSort _ _).mem_iff.1 hfn
        · rw [splitname_fst] at hp
          exact (Option.some.injEq _ _ ▸ hp).symm
      · rw [if_neg h] at hp
        exact absurd hp (by simp)
    · rintro ⟨fn, hfn, hfeed, rfl⟩
      refine ⟨splitname fn, ?_, ?_⟩
      · exact List.mem_map_of_mem splitname
          ((List.perm_insertionSort _ _).mem_iff.2 hfn)
      · rw [if_pos hfeed, splitname_fst]

/-- **C3.** Every execution reaching the export stage raises `NameError`:
the name `pd` used at line 124 is never imported or otherwise bound, so
the stop-name annotation and the final CSV export are never performed. -/
theorem export_stage_raises_name_error :
    "pd" ∉ module_names_in_scope_at_line_124 ∧
    exportStage = Except.error "NameError: name pd is not defined" :=
  ⟨by decide, rfl⟩

theorem lookup_eq_some_of_mem (l : List (String × String)) (k v : String)
    (hnd : (l.map Prod.fst).Nodup) (hm : (k, v) ∈ l) :
    l.lookup k = some v := by
  induction l with
  | nil => simp at hm
  | cons e l ih =>
    rw [List.map_cons] at hnd
    rcases List.mem_cons.1 hm with h | hm'
    · rw [← h]
      simp [List.lookup]
    · have hk : (k == e.1) = false := by
        rw [beq_eq_false_iff_ne]
        intro hek
        have hkmem : k ∈ l.map Prod.fst := by
          simpa using List.mem_map_of_mem Prod.fst hm'
        exact (List.nodup_cons.1 hnd).1 (hek ▸ hkmem)
      cases e with
      | mk ek ev =>
        show (match k == ek with
          | true => some ev
          | false => List.lookup k l) = some v
        simp only at hk
        rw [hk]
        exact ih (List.nodup_cons.1 hnd).2 hm'

/-- **C8.** For every `stop_id`, the stop-name lookup used by the exporter
returns the `stop_name` recorded for that `stop_id` when it is present in
the stops table's index, and `none` when it is absent. -/
theorem get_stop_name_spec (stops : List (String × String))
    (stop_id : String) :
    (∀ nm, (stops.map Prod.fst).Nodup → (stop_id, nm) ∈ stops →
      get_stop_name_for_stop_id stops stop_id = some nm) ∧
    (stop_id ∉ stops.map Prod.fst →
      get_stop_name_for_stop_id stops stop_id = none) := by
  constructor
  · intro nm hnd hm
    have hc : stopsIndexContains stops stop_id = true := by
      rw [stopsIndexContains, List.any_eq_true]
      exact ⟨(stop_id, nm), hm, by simp⟩
    rw [get_stop_name_for_stop_id, if_pos hc]
    exact lookup_eq_some_of_mem stops stop_id nm hnd hm
  · intro habs
    have hc : stopsIndexContains stops stop_id = false := by
      rw [stopsIndexContains, List.any_eq_false]
      intro e he
      simp only [beq_iff_eq]
      intro heq
      exact habs (heq ▸ List.mem_map_of_mem Prod.fst he)
    rw [get_stop_name_for_stop_id, if_neg (by rw [hc]; exact Bool.false_ne_true)]

/-- Witness for `get_stop_name_spec` on a concrete two-row stops table. -/
theorem get_stop_name_spec_witness :
    get_stop_name_for_stop_id
      [("701", "Flushing Main St"), ("702", "Mets Willets Pt")] "701" =
        some "Flushing Main St" ∧
    get_stop_name_for_stop_id
      [("701", "Flushing Main St"), ("702", "Mets Willets Pt")] "999" =
        none :=
  ⟨(get_stop_name_spec _ "701").1 "Flushing Main St" (by decide) (by decide),
   (get_stop_name_spec _ "999").2 (by decide)⟩

theorem chronOrdered_iff :
    ∀ ts : List Int, chronOrdered ts = true ↔ List.Chain' (· ≤ ·) ts
  | [] => by simp [chronOrdered]
  | [a] => by simp [chronOrdered]
  | a :: b :: ts => by
    rw [chronOrdered, Bool.and_eq_true, decide_eq_true_iff,
        chronOrdered_iff (b :: ts), List.chain'_cons]

theorem lookupRec_applyUpdate (lb : Logbook) (u : TripStopUpdate)
    (k : String × Nat) :
    lookupRec (applyUpdate lb u) k =
      if updKey u = k then stepO (lookupRec lb k) u else lookupRec lb k := by
  induction lb with
  | nil =>
    by_cases h : updKey u = k
    · simp [applyUpdate, lookupRec, h, stepO]
    · simp [applyUpdate, lookupRec, h]
  | cons e lb ih =>
    by_cases he : e.1 = updKey u
    · rw [applyUpdate, if_pos he]
      by_cases hk : updKey u = k
      · rw [lookupRec, if_pos (he.trans hk), if_pos hk, lookupRec,
            if_pos (he.trans hk), stepO]
      · rw [lookupRec, if_neg (fun h => hk (he ▸ h)), if_neg hk, lookupRec,
            if_neg (fun h => hk (he ▸ h))]
  -- the remaining case: the head entry has a different key
    · rw [applyUpdate, if_neg he]
      by_cases hek : e.1 = k
      · have hk : ¬ updKey u = k := fun h => he (hek ▸ h.symm ▸ rfl)
        rw [lookupRec, if_pos hek, if_neg hk, lookupRec, if_pos hek]
      · rw [lookupRec, if_neg hek, ih, lookupRec, if_neg hek]

theorem lookupRec_foldl_applyUpdate (us : List TripStopUpdate)
    (lb : Logbook) (k : String × Nat) :
    lookupRec (us.foldl applyUpdate lb) k =
      (keyUpdates k us).foldl stepO (lookupRec lb k) := by
  induction us generalizing lb with
  | nil => rfl
  | cons u us ih =>
    rw [List.foldl_cons, ih]
    simp only [keyUpdates, List.filter_cons]
    by_cases h : updKey u = k
    · rw [lookupRec_applyUpdate, if_pos h]
      simp [h]
    · rw [lookupRec_applyUpdate, if_neg h]
      simp [h]

theorem stepRecord_of_finalized (r : TripRecord) (u : TripStopUpdate)
    (h : r.finalized_time.isSome) : stepRecord r u = r := by
  rw [stepRecord, if_pos h]

theorem foldl_stepO_finalized (us : List TripStopUpdate) (r : TripRecord)
    (h : r.finalized_time.isSome) : us.foldl stepO (some r) = some r := by
  induction us with
  | nil => rfl
  | cons u us ih =>
    rw [List.foldl_cons]
    show us.foldl stepO (some (stepRecord r u)) = some r
    rw [stepRecord_of_finalized r u h]
    exact ih

theorem finStat_stepRecord (r : TripRecord) (u : TripStopUpdate) :
    finStat (stepRecord r u) = finStep (finStat r) u := by
  rcases hf : r.finalized_time with _ | t
  · rcases ho : u.is_observed with _ | _
    · rcases he : updEstimate u with _ | t2 <;>
        simp [stepRecord, finStep, finStat, hf, ho, he]
    · rcases he : updEstimate u with _ | t2 <;>
        simp [stepRecord, finStep, finStat, hf, ho, he]
  · simp [stepRecord, finStep, finStat, hf]

theorem foldl_stepO_some (us : List TripStopUpdate) (r : TripRecord) :
    ∃ r2, us.foldl stepO (some r) = some r2 ∧
      finStat r2 = us.foldl finStep (finStat r) := by
  induction us generalizing r with
  | nil => exact ⟨r, rfl, rfl⟩
  | cons u us ih =>
    rw [List.foldl_cons, List.foldl_cons]
    obtain ⟨r2, h1, h2⟩ := ih (stepRecord r u)
    exact ⟨r2, h1, by rw [h2, finStat_stepRecord]⟩

theorem foldl_finStep_finalized (us : List TripStopUpdate)
    (p : Option Int × TripStatus) (h : p.1.isSome) :
    us.foldl finStep p = p := by
  induction us with
  | nil => rfl
  | cons u us ih =>
    rw [List.foldl_cons]
    rcases hp : p.1 with _ | t
    · rw [hp] at h
      simp at h
    · have : finStep p u = p := by
        rw [finStep, hp]
      rw [this]
      exact ih

/-- The finalization machine started unfinalized does not depend on the
starting status except when nothing ever finalizes. -/
theorem finStep_fold_start (us : List TripStopUpdate) (st : TripStatus) :
    us.foldl finStep (none, st) =
      if (us.foldl finStep (none, TripStatus.Scheduled)).1.isSome
      then us.foldl finStep (none, TripStatus.Scheduled)
      else (none, st) := by
  induction us generalizing st with
  | nil => simp
  | cons u us ih =>
    rw [List.foldl_cons, List.foldl_cons]
    by_cases ho : u.is_observed
    · rcases he : updEstimate u with _ | t
      · have h1 : ∀ s, finStep (none, s) u = (none, s) := by
          intro s
          rw [finStep]
          simp [ho, he]
        rw [h1, h1]
        exact ih st
      · have h1 : ∀ s, finStep (none, s) u = (some t, observedStatus u) := by
          intro s
          rw [finStep]
          simp [ho, he]
        rw [h1, h1]
        rw [foldl_finStep_finalized us (some t, observedStatus u) (by simp)]
        simp
    · have h1 : ∀ s, finStep (none, s) u = (none, s) := by
        intro s
        rw [finStep]
        simp [ho]
      rw [h1, h1]
      exact ih st

theorem lookupRec_append (a b : Logbook) (k : String × Nat) :
    lookupRec (a ++ b) k =
      match lookupRec a k with
      | some r => some r
      | none => lookupRec b k := by
  induction a with
  | nil => rfl
  | cons e a ih =>
    by_cases he : e.1 = k
    · rw [List.cons_append, lookupRec, if_pos he, lookupRec, if_pos he]
    · rw [List.cons_append, lookupRec, if_neg he, lookupRec, if_neg he, ih]

theorem lookupRec_replaceRec_ne (a : Logbook) (k0 k : String × Nat)
    (r0 : TripRecord) (hne : k ≠ k0) :
    lookupRec (replaceRec a k0 r0) k = lookupRec a k := by
  induction a with
  | nil => rfl
  | cons e a ih =>
    by_cases he : e.1 = k0
    · rw [replaceRec, if_pos he, lookupRec,
          if_neg (fun h : k0 = k => hne h.symm), lookupRec,
          if_neg (fun h : e.1 = k => hne (he ▸ h.symm ▸ rfl))]
    · rw [replaceRec, if_neg he]
      by_cases hek : e.1 = k
      · rw [lookupRec, if_pos hek, lookupRec, if_pos hek]
      · rw [lookupRec, if_neg hek, lookupRec, if_neg hek, ih]

theorem lookupRec_replaceRec_eq (a : Logbook) (k0 : String × Nat)
    (r0 : TripRecord) (h : (lookupRec a k0).isSome) :
    lookupRec (replaceRec a k0 r0) k0 = some r0 := by
  induction a with
  | nil => simp [lookupRec] at h
  | cons e a ih =>
    by_cases he : e.1 = k0
    · rw [replaceRec, if_pos he, lookupRec, if_pos rfl]
    · rw [lookupRec, if_neg he] at h
      rw [replaceRec, if_neg he, lookupRec, if_neg he, ih h]

theorem lookupRec_mergeInsert_ne (acc : Logbook)
    (e : (String × Nat) × TripRecord) (k : String × Nat) (hne : e.1 ≠ k) :
    lookupRec (mergeInsert acc e) k = lookupRec acc k := by
  rcases hacc : lookupRec acc e.1 with _ | r
  · rw [mergeInsert, hacc, lookupRec_append]
    have h1 : lookupRec [e] k = none := by
      rw [lookupRec, if_neg hne]
      rfl
    rw [h1]
    rcases lookupRec acc k with _ | r2 <;> rfl
  · simp only [mergeInsert, hacc]
    by_cases hcond : (r.finalized_time.isNone && e.2.finalized_time.isSome)
        = true
    · rw [if_pos hcond, lookupRec_replaceRec_ne acc e.1 k e.2
          (fun h => hne h.symm)]
    · rw [if_neg hcond]

theorem lookupRec_mergeInsert_eq (acc : Logbook)
    (e : (String × Nat) × TripRecord) :
    lookupRec (mergeInsert acc e) e.1 =
      match lookupRec acc e.1 with
      | none => some e.2
      | some r =>
        some (if r.finalized_time.isNone && e.2.finalized_time.isSome
              then e.2 else r) := by
  rcases hacc : lookupRec acc e.1 with _ | r
  · rw [mergeInsert, hacc, lookupRec_append, hacc, lookupRec, if_pos rfl]
  · simp only [mergeInsert, hacc]
    by_cases hcond : (r.finalized_time.isNone && e.2.finalized_time.isSome)
        = true
    · rw [if_pos hcond,
          lookupRec_replaceRec_eq acc e.1 e.2 (by rw [hacc]; rfl), hcond]
      simp
    · rw [if_neg hcond,
          show (r.finalized_time.isNone && e.2.finalized_time.isSome) = false
            from Bool.eq_false_iff.2 hcond]
      simp
      exact hacc

theorem lookupRec_none_of_not_mem (b : Logbook) (k : String × Nat)
    (h : k ∉ b.map Prod.fst) : lookupRec b k = none := by
  induction b with
  | nil => rfl
  | cons e b ih =>
    rw [List.map_cons] at h
    have h1 : ¬ e.1 = k := fun hek => h (by simp [hek])
    have h2 : k ∉ b.map Prod.fst := fun hk => h (List.mem_cons_of_mem _ hk)
    rw [lookupRec, if_neg h1, ih h2]

theorem lookupRec_merge_two :
    ∀ (b acc : Logbook) (k : String × Nat), (b.map Prod.fst).Nodup →
      lookupRec (merge_two acc b) k =
        match lookupRec b k with
        | none => lookupRec acc k
        | some rb =>
          match lookupRec acc k with
          | none => some rb
          | some ra =>
            some (if ra.finalized_time.isNone && rb.finalized_time.isSome
                  then rb else ra)
  | [], acc, k, _ => rfl
  | e :: b, acc, k, hnd => by
    rw [List.map_cons] at hnd
    have hnd' : (b.map Prod.fst).Nodup := (List.nodup_cons.1 hnd).2
    have hhead : e.1 ∉ b.map Prod.fst := (List.nodup_cons.1 hnd).1
    have step : merge_two acc (e :: b) = merge_two (mergeInsert acc e) b :=
      rfl
    rw [step, lookupRec_merge_two b (mergeInsert acc e) k hnd']
    by_cases he : e.1 = k
    · subst he
      have hb : lookupRec b e.1 = none := lookupRec_none_of_not_mem b e.1 hhead
      rw [hb, show lookupRec (e :: b) e.1 = some e.2 from by
            rw [lookupRec, if_pos rfl]]
      exact lookupRec_mergeInsert_eq acc e
    · rw [show lookupRec (e :: b) k = lookupRec b k from by
            rw [lookupRec, if_neg he],
          lookupRec_mergeInsert_ne acc e k he]

theorem keys_applyUpdate_subset (lb : Logbook) (u : TripStopUpdate) :
    ∀ k ∈ (applyUpdate lb u).map Prod.fst,
      k ∈ updKey u :: lb.map Prod.fst := by
  induction lb with
  | nil =>
    intro k hk
    simp [applyUpdate] at hk
    simp [hk]
  | cons e lb ih =>
    intro k hk
    by_cases he : e.1 = updKey u
    · rw [applyUpdate, if_pos he] at hk
      rcases List.mem_map.1 hk with ⟨f, hf, rfl⟩
      rcases List.mem_cons.1 hf with rfl | hf'
      · simp [he]
      · simp only [List.map_cons, List.mem_cons]
        right; right
        exact List.mem_map_of_mem Prod.fst hf'
    · rw [applyUpdate, if_neg he] at hk
      rcases List.mem_map.1 hk with ⟨f, hf, rfl⟩
      rcases List.mem_cons.1 hf with rfl | hf'
      · simp
      · have := ih f.1 (List.mem_map_of_mem Prod.fst hf')
        rcases List.mem_cons.1 this with h1 | h1
        · simp [h1]
        · simp only [List.map_cons, List.mem_cons]
          right; right
          exact h1

theorem nodup_keys_applyUpdate (lb : Logbook) (u : TripStopUpdate)
    (h : (lb.map Prod.fst).Nodup) :
    ((applyUpdate lb u).map Prod.fst).Nodup := by
  induction lb with
  | nil => simp [applyUpdate]
  | cons e lb ih =>
    rw [List.map_cons] at h
    by_cases he : e.1 = updKey u
    · rw [applyUpdate, if_pos he, List.map_cons]
      exact h
    · rw [applyUpdate, if_neg he, List.map_cons, List.nodup_cons]
      refine ⟨?_, ih (List.nodup_cons.1 h).2⟩
      intro hmem
      rcases List.mem_cons.1 (keys_applyUpdate_subset lb u e.1 hmem) with h1 | h1
      · exact he h1
      · exact (List.nodup_cons.1 h).1 h1

theorem nodup_keys_foldl_applyUpdate (us : List TripStopUpdate)
    (lb : Logbook) (h : (lb.map Prod.fst).Nodup) :
    ((us.foldl applyUpdate lb).map Prod.fst).Nodup := by
  induction us generalizing lb with
  | nil => exact h
  | cons u us ih =>
    rw [List.foldl_cons]
    exact ih _ (nodup_keys_applyUpdate lb u h)

theorem nodup_keys_buildLB (us : List TripStopUpdate) :
    ((buildLB us).map Prod.fst).Nodup :=
  nodup_keys_foldl_applyUpdate us [] (by simp)

theorem finStat_blankRecord (u : TripStopUpdate) :
    finStat (blankRecord u) = (none, TripStatus.Scheduled) := rfl

/-- Per key, merging the logbooks built from two consecutive chunks agrees
with the one-pass build of the concatenated update stream on
`finalized_time` and `status`. -/
theorem finStatAt_merge_two_build (l1 l2 : List TripStopUpdate)
    (k : String × Nat) :
    finStatAt (merge_two (buildLB l1) (buildLB l2)) k =
      finStatAt (buildLB (l1 ++ l2)) k := by
  have hb2 := nodup_keys_buildLB l2
  have hA : lookupRec (buildLB l1) k = (keyUpdates k l1).foldl stepO none :=
    lookupRec_foldl_applyUpdate l1 [] k
  have hB : lookupRec (buildLB l2) k = (keyUpdates k l2).foldl stepO none :=
    lookupRec_foldl_applyUpdate l2 [] k
  have hO : lookupRec (buildLB (l1 ++ l2)) k =
      (keyUpdates k l2).foldl stepO ((keyUpdates k l1).foldl stepO none) := by
    have h1 : buildLB (l1 ++ l2) = l2.foldl applyUpdate (buildLB l1) := by
      rw [buildLB, buildLB, List.foldl_append]
    rw [h1, lookupRec_foldl_applyUpdate l2 (buildLB l1) k, hA]
  rw [finStatAt, finStatAt,
      lookupRec_merge_two (buildLB l2) (buildLB l1) k hb2, hA, hB, hO]
  cases hku1 : keyUpdates k l1 with
  | nil =>
    simp only [List.foldl_nil]
    cases hb : (keyUpdates k l2).foldl stepO none <;> rfl
  | cons u us =>
    simp only [List.foldl_cons]
    obtain ⟨ra, hra, hfra⟩ :=
      foldl_stepO_some us (stepRecord (blankRecord u) u)
    rw [show stepO none u = some (stepRecord (blankRecord u) u) from rfl, hra]
    cases hfin : ra.finalized_time with
    | some t =>
      rw [foldl_stepO_finalized (keyUpdates k l2) ra (by rw [hfin]; rfl)]
      cases hb : (keyUpdates k l2).foldl stepO none with
      | none => rfl
      | some rb =>
        show Option.map finStat
            (some (if (ra.finalized_time.isNone &&
              rb.finalized_time.isSome) = true then rb else ra)) =
          Option.map finStat (some ra)
        rw [hfin]
        simp
    | none =>
      cases hku2 : keyUpdates k l2 with
      | nil => simp only [List.foldl_nil]
      | cons v vs =>
        simp only [List.foldl_cons]
        obtain ⟨rb, hrb, hfrb⟩ :=
          foldl_stepO_some vs (stepRecord (blankRecord v) v)
        obtain ⟨ro, hro, hfro⟩ := foldl_stepO_some vs (stepRecord ra v)
        rw [show stepO none v = some (stepRecord (blankRecord v) v) from rfl,
            hrb,
            show stepO (some ra) v = some (stepRecord ra v) from rfl, hro]
        show Option.map finStat
            (some (if (ra.finalized_time.isNone &&
              rb.finalized_time.isSome) = true then rb else ra)) =
          Option.map finStat (some ro)
        have hfa : finStat ra = (none, ra.status) := by
          rw [finStat, hfin]
        have hrbstat : finStat rb =
            (v :: vs).foldl finStep (none, TripStatus.Scheduled) := by
          rw [hfrb, finStat_stepRecord, finStat_blankRecord,
              ← List.foldl_cons]
        have hrostat : finStat ro =
            if ((v :: vs).foldl finStep
                (none, TripStatus.Scheduled)).1.isSome
            then (v :: vs).foldl finStep (none, TripStatus.Scheduled)
            else (none, ra.status) := by
          rw [hfro, finStat_stepRecord, hfa, ← List.foldl_cons]
          exact finStep_fold_start (v :: vs) ra.status
        have hrbfin : rb.finalized_time =
            ((v :: vs).foldl finStep (none, TripStatus.Scheduled)).1 := by
          rw [← hrbstat]
          rfl
        cases hS : ((v :: vs).foldl finStep
            (none, TripStatus.Scheduled)).1 with
        | none =>
          have hrbf : rb.finalized_time = none := by rw [hrbfin, hS]
          have hrost : finStat ro = (none, ra.status) := by
            rw [hrostat, hS]
            simp
          rw [hrbf, hfin]
          simp only [Option.isNone_none, Option.isSome_none, Bool.and_false]
          simp [hrost, hfa]
        | some t2 =>
          have hrbf : rb.finalized_time = some t2 := by rw [hrbfin, hS]
          have hrost : finStat ro = finStat rb := by
            rw [hrostat, hS, hrbstat]
            simp
          rw [hrbf, hfin]
          simp [hrost]

theorem finStatAt_merge_two_congr (b a a2 : Logbook)
    (hnd : (b.map Prod.fst).Nodup)
    (hcong : ∀ k, finStatAt a k = finStatAt a2 k) (k : String × Nat) :
    finStatAt (merge_two a b) k = finStatAt (merge_two a2 b) k := by
  rw [finStatAt, finStatAt, lookupRec_merge_two b a k hnd,
      lookupRec_merge_two b a2 k hnd]
  cases hb : lookupRec b k with
  | none =>
    have h := hcong k
    rw [finStatAt, finStatAt] at h
    exact h
  | some rb =>
    have h := hcong k
    rw [finStatAt, finStatAt] at h
    cases ha : lookupRec a k with
    | none =>
      cases ha2 : lookupRec a2 k with
      | none => rfl
      | some ra2 =>
        rw [ha, ha2] at h
        simp at h
    | some ra =>
      cases ha2 : lookupRec a2 k with
      | none =>
        rw [ha, ha2] at h
        simp at h
      | some ra2 =>
        rw [ha, ha2] at h
        simp only [Option.map_some'] at h
        have hfs : finStat ra = finStat ra2 := Option.some.inj h
        have hfin : ra.finalized_time = ra2.finalized_time := by
          have h2 := congrArg Prod.fst hfs
          rw [finStat, finStat] at h2
          exact h2
        show Option.map finStat
            (some (if (ra.finalized_time.isNone &&
              rb.finalized_time.isSome) = true then rb else ra)) =
          Option.map finStat
            (some (if (ra2.finalized_time.isNone &&
              rb.finalized_time.isSome) = true then rb else ra2))
        rw [hfin]
        cases hc : (ra2.finalized_time.isNone && rb.finalized_time.isSome)
        · simp [hfs]
        · simp

theorem finStatAt_foldl_merge_two_congr :
    ∀ (bs : List Logbook) (a a2 : Logbook),
      (∀ b ∈ bs, (b.map Prod.fst).Nodup) →
      (∀ k, finStatAt a k = finStatAt a2 k) →
      ∀ k, finStatAt (bs.foldl merge_two a) k =
        finStatAt (bs.foldl merge_two a2) k
  | [], _, _, _, hcong, k => hcong k
  | b :: bs, a, a2, hnd, hcong, k => by
    rw [List.foldl_cons, List.foldl_cons]
    exact finStatAt_foldl_merge_two_congr bs (merge_two a b) (merge_two a2 b)
      (fun b2 hb2 => hnd b2 (List.mem_cons_of_mem _ hb2))
      (fun k2 => finStatAt_merge_two_congr b a a2
        (hnd b (List.mem_cons_self _ _)) hcong k2) k

/-- Sequentially merging the per-chunk builds agrees per key, on
finalization data, with the one-pass build of the concatenation. -/
theorem finStatAt_foldl_merge_build :
    ∀ (cs : List (List TripStopUpdate)) (acc : List TripStopUpdate)
      (k : String × Nat),
      finStatAt ((cs.map buildLB).foldl merge_two (buildLB acc)) k =
        finStatAt (buildLB (acc ++ cs.flatten)) k
  | [], acc, k => by simp
  | c :: cs, acc, k => by
    rw [List.map_cons, List.foldl_cons]
    have h2 := finStatAt_foldl_merge_two_congr (cs.map buildLB)
      (merge_two (buildLB acc) (buildLB c)) (buildLB (acc ++ c))
      (fun b hb => by
        rcases List.mem_map.1 hb with ⟨us, _, rfl⟩
        exact nodup_keys_buildLB us)
      (fun k2 => finStatAt_merge_two_build acc c k2) k
    rw [h2, finStatAt_foldl_merge_build cs (acc ++ c) k,
        List.flatten_cons, List.append_assoc]

theorem logifyGo_logbook :
    ∀ (raws : List RawSnapshot) (lb : Logbook) (i : Nat),
      (logifyGo lb i raws).1 = (okSnaps raws).foldl applySnapshot lb
  | [], _, _ => rfl
  | RawSnapshot.wellFormed s :: rest, lb, i => by
    show (logifyGo (applySnapshot lb s) (i + 1) rest).1 =
      (okSnaps (RawSnapshot.wellFormed s :: rest)).foldl applySnapshot lb
    rw [logifyGo_logbook rest (applySnapshot lb s) (i + 1)]
    rfl
  | RawSnapshot.malformed why :: rest, lb, i => by
    show (logifyGo lb (i + 1) rest).1 =
      (okSnaps (RawSnapshot.malformed why :: rest)).foldl applySnapshot lb
    rw [logifyGo_logbook rest lb (i + 1)]
    rfl

theorem logifyGo_timestamps :
    ∀ (raws : List RawSnapshot) (lb : Logbook) (i : Nat),
      (logifyGo lb i raws).2.1 = (okSnaps raws).map Snapshot.timestamp
  | [], _, _ => rfl
  | RawSnapshot.wellFormed s :: rest, lb, i => by
    show s.timestamp :: (logifyGo (applySnapshot lb s) (i + 1) rest).2.1 =
      (okSnaps (RawSnapshot.wellFormed s :: rest)).map Snapshot.timestamp
    rw [logifyGo_timestamps rest (applySnapshot lb s) (i + 1)]
    rfl
  | RawSnapshot.malformed why :: rest, lb, i => by
    show (logifyGo lb (i + 1) rest).2.1 =
      (okSnaps (RawSnapshot.malformed why :: rest)).map Snapshot.timestamp
    rw [logifyGo_timestamps rest lb (i + 1)]
    rfl

theorem foldl_applySnapshot (ss : List Snapshot) (lb : Logbook) :
    ss.foldl applySnapshot lb =
      ((ss.map Snapshot.updates).flatten).foldl applyUpdate lb := by
  induction ss generalizing lb with
  | nil => rfl
  | cons s ss ih =>
    rw [List.foldl_cons, ih, List.map_cons, List.flatten_cons,
        List.foldl_append]
    rfl

theorem logify_logbook (raws : List RawSnapshot) :
    (logify raws).1 = buildLB (allUpdates raws) := by
  rw [logify, logifyGo_logbook raws [] 0, foldl_applySnapshot]
  rfl

theorem logify_timestamps (raws : List RawSnapshot) :
    (logify raws).2.1 = (okSnaps raws).map Snapshot.timestamp :=
  logifyGo_timestamps raws [] 0

theorem okSnaps_append (xs ys : List RawSnapshot) :
    okSnaps (xs ++ ys) = okSnaps xs ++ okSnaps ys := by
  rw [okSnaps, okSnaps, okSnaps, List.filterMap_append]

theorem allUpdates_append (xs ys : List RawSnapshot) :
    allUpdates (xs ++ ys) = allUpdates xs ++ allUpdates ys := by
  rw [allUpdates, allUpdates, allUpdates, okSnaps_append, List.map_append,
      List.flatten_append]

theorem allUpdates_flatten :
    ∀ cs : List (List RawSnapshot),
      allUpdates cs.flatten = (cs.map allUpdates).flatten
  | [] => rfl
  | c :: cs => by
    rw [List.flatten_cons, allUpdates_append, allUpdates_flatten cs,
        List.map_cons, List.flatten_cons]

theorem chunk_timestamps_flatten :
    ∀ cs : List (List RawSnapshot),
      (cs.map (fun c => (logify c).2.1)).flatten = (logify cs.flatten).2.1
  | [] => rfl
  | c :: cs => by
    rw [List.map_cons, List.flatten_cons, chunk_timestamps_flatten cs,
        List.flatten_cons, logify_timestamps (c ++ cs.flatten),
        okSnaps_append, List.map_append, logify_timestamps c,
        logify_timestamps cs.flatten]

/-- **C2, amended.** For every chronologically ordered partition of one
feed's message stream into chunks (any number of chunks, in particular 1,
2 or 4), building each chunk's logbook independently and merging the
resulting (logbook, timestamps) pairs with `merge_logbooks` yields a
logbook with exactly the same `(trip_id, stop_sequence)` records as the
logbook built from the whole unpartitioned stream in a single pass, each
record agreeing with the one-pass record on `finalized_time` and `status`
(the merged timestamps equal the one-pass timestamps as well); the
records' `first_seen`/`last_seen` estimates may come from only the winning
chunk and can differ from the one-pass values. -/
theorem merge_chunks_matches_onepass (cs : List (List RawSnapshot))
    (h : List.Chain' (· ≤ ·) ((logify cs.flatten).2.1)) :
    ∃ L, merge_logbooks
        (cs.map (fun c => ((logify c).1, (logify c).2.1))) =
      Except.ok (L, (logify cs.flatten).2.1) ∧
      ∀ k, finStatAt L k = finStatAt (logify cs.flatten).1 k := by
  have hts : ((cs.map (fun c => ((logify c).1, (logify c).2.1))).map
      Prod.snd).flatten = (logify cs.flatten).2.1 := by
    rw [List.map_map]
    exact chunk_timestamps_flatten cs
  refine ⟨(cs.map (fun c => ((logify c).1, (logify c).2.1))).foldl
    (fun acc p => merge_two acc p.1) [], ?_, ?_⟩
  · simp only [merge_logbooks]
    rw [hts, if_pos ((chronOrdered_iff _).2 h)]
  · intro k
    have hmain := finStatAt_foldl_merge_build (cs.map allUpdates) [] k
    rw [List.map_map] at hmain
    rw [List.foldl_map] at hmain
    have hflat : (cs.map allUpdates).flatten = allUpdates cs.flatten :=
      (allUpdates_flatten cs).symm
    rw [hflat] at hmain
    rw [List.foldl_map]
    simp only [logify_logbook]
    have hstart : buildLB ([] : List TripStopUpdate) = ([] : Logbook) := rfl
    rw [hstart] at hmain
    have hnil : ([] : List TripStopUpdate) ++ allUpdates cs.flatten =
        allUpdates cs.flatten := List.nil_append _
    rw [hnil] at hmain
    exact hmain

/-- **C2, counterexample.** Splitting the two-snapshot stream for trip
`T1` at the chunk boundary and merging does *not* reproduce the one-pass
logbook record for `("T1", 1)` exactly: the merged record keeps the
winning (second) chunk's `first_seen_estimate` 108, while the one-pass
record has 110 from the first snapshot — so the merged logbook is not
identical (even up to record ordering) to the one-pass logbook. -/
theorem merge_identical_counterexample :
    ∃ L T, merge_logbooks
        [((logify cexChunk1).1, (logify cexChunk1).2.1),
         ((logify cexChunk2).1, (logify cexChunk2).2.1)] =
      Except.ok (L, T) ∧
      lookupRec L ("T1", 1) ≠
        lookupRec (logify (cexChunk1 ++ cexChunk2)).1 ("T1", 1) := by
  refine ⟨_, _, rfl, ?_⟩
  decide

/-- Witness for `merge_chunks_matches_onepass` at the concrete two-chunk
split of the `T1` stream. -/
theorem merge_chunks_matches_onepass_witness :
    List.Chain' (· ≤ ·) ((logify ([cexChunk1, cexChunk2]).flatten).2.1) ∧
    ∃ L, merge_logbooks
        ([cexChunk1, cexChunk2].map (fun c => ((logify c).1, (logify c).2.1))) =
      Except.ok (L, (logify ([cexChunk1, cexChunk2]).flatten).2.1) ∧
      ∀ k, finStatAt L k =
        finStatAt (logify ([cexChunk1, cexChunk2]).flatten).1 k :=
  ⟨(chronOrdered_iff _).1 (by decide),
   merge_chunks_matches_onepass [cexChunk1, cexChunk2]
     ((chronOrdered_iff _).1 (by decide))⟩

/-- **C9.** For every sequence of snapshots folded into a logbook, once a
TripRecord's `finalized_time` has been set by some snapshot, folding any
further snapshots of the sequence leaves that `finalized_time`
unchanged. -/
theorem finalized_time_immutable (raws more : List RawSnapshot)
    (k : String × Nat) (r : TripRecord) (t : Int)
    (h1 : lookupRec (logify raws).1 k = some r)
    (h2 : r.finalized_time = some t) :
    ∃ r2, lookupRec (logify (raws ++ more)).1 k = some r2 ∧
      r2.finalized_time = some t := by
  have hlb : (logify (raws ++ more)).1 =
      (allUpdates more).foldl applyUpdate (logify raws).1 := by
    rw [logify_logbook, logify_logbook, allUpdates_append, buildLB, buildLB,
        List.foldl_append]
  rw [hlb, lookupRec_foldl_applyUpdate, h1,
      foldl_stepO_finalized _ r (by rw [h2]; rfl)]
  exact ⟨r, rfl, h2⟩

/-- Witness for `finalized_time_immutable`: the record finalized at 108
stays finalized at 108 after folding a later snapshot. -/
theorem finalized_time_immutable_witness :
    ∃ r2, lookupRec (logify ((cexChunk1 ++ cexChunk2) ++ cexMore)).1
        ("T1", 1) = some r2 ∧ r2.finalized_time = some 108 :=
  finalized_time_immutable (cexChunk1 ++ cexChunk2) cexMore ("T1", 1)
    { trip_id := "T1", stop_id := "S1", stop_sequence := 1,
      first_seen_estimate := some 110, last_seen_estimate := some 110,
      finalized_time := some 108, status := TripStatus.Arrived }
    108 (by decide) rfl

/-- **C10.** For every logbook, applying the cancellation cut twice gives
the same result as applying it once:
`cut_cancellations (cut_cancellations L) = cut_cancellations L`. -/
theorem cut_cancellations_idempotent (lb : Logbook) :
    cut_cancellations (cut_cancellations lb) = cut_cancellations lb := by
  rw [show cut_cancellations (cut_cancellations lb) =
      (cut_cancellations lb).filter (fun e =>
        e.2.finalized_time.isSome ||
          ! laterFinalized (cut_cancellations lb) e.1) from rfl]
  apply List.filter_eq_self.2
  intro e he
  rcases List.mem_filter.1 he with ⟨helb, hpred⟩
  cases hf : e.2.finalized_time.isSome with
  | true => simp [hf]
  | false =>
    have hnl : laterFinalized lb e.1 = false := by
      rw [hf] at hpred
      simp at hpred
      simp [hpred]
    have hnl2 : laterFinalized (cut_cancellations lb) e.1 = false := by
      rw [laterFinalized]
      apply List.any_eq_false.2
      intro x hx
      intro hcond
      have hxlb : x ∈ lb := (List.mem_filter.1 hx).1
      have hlater : laterFinalized lb e.1 = true := by
        rw [laterFinalized, List.any_eq_true]
        exact ⟨x, hxlb, hcond⟩
      rw [hnl] at hlater
      cases hlater
    simp [hf, hnl2]

theorem processChunks_go :
    ∀ (chunks : List (List RawSnapshot))
      (acc : List Logbook × List (List Int) × List (List ParseError)),
      chunks.foldl (fun acc chunk =>
          let out := logify chunk
          (acc.1 ++ [out.1], acc.2.1 ++ [out.2.1], acc.2.2 ++ [out.2.2]))
        acc =
      (acc.1 ++ chunks.map (fun ch => (logify ch).1),
       acc.2.1 ++ chunks.map (fun ch => (logify ch).2.1),
       acc.2.2 ++ chunks.map (fun ch => (logify ch).2.2))
  | [], acc => by simp
  | ch :: chunks, acc => by
    rw [List.foldl_cons, processChunks_go chunks]
    simp

/-- **C6.** Parse errors are carried through the run as data and never
terminate processing: every chunk contributes a logbook (the per-feed loop
is total, one sublog per chunk), and the per-feed parse-error output is
the ordered concatenation, in chunk order, of the parse-error sequences
returned by each chunk's `logify` call. -/
theorem feed_parse_errors_concat (chunks : List (List RawSnapshot)) :
    (processChunks chunks).1.length = chunks.length ∧
    feedParseErrors chunks =
      (chunks.map (fun c => (logify c).2.2)).flatten := by
  constructor
  · rw [processChunks, processChunks_go chunks ([], [], [])]
    simp
  · rw [feedParseErrors, processChunks, processChunks_go chunks ([], [], [])]
    simp

end Build
